import Mathlib

/-!
Shallow embedding of the message-scanning logic of `src/main.rs`
(bitcoinMessageFinder).  Decoded text is modelled as a list of Unicode
code points (`List Nat`); hex payloads keep their source type `String`.
The scanner `check_transaction_for_messages`, the filter
`is_printable_ascii` and the decoder `extract_hidden_message` are
translated from the Rust source; `hexDecodeList` models `hex::decode`
and `utf8LossyGo`/`utf8Lossy` model `String::from_utf8_lossy` (UTF-8
decoding with maximal-subpart replacement by U+FFFD).
-/

namespace BitcoinMessageFinder

/-- Code points of a Lean string literal; used to express the label text
(`"Coinbase: "` etc.) and ASCII messages as lists of code points. -/
def strCodes (s : String) : List Nat := s.data.map Char.toNat

/-- Value of one hex digit, models the per-character decoding of the
`hex` crate (`0-9`, `a-f`, `A-F`). -/
def hexDigitVal (c : Char) : Option Nat :=
  if 48 ≤ c.toNat ∧ c.toNat ≤ 57 then some (c.toNat - 48)
  else if 97 ≤ c.toNat ∧ c.toNat ≤ 102 then some (c.toNat - 87)
  else if 65 ≤ c.toNat ∧ c.toNat ≤ 70 then some (c.toNat - 55)
  else none

/-- Models `hex::decode`: pairs of hex digits become bytes; an odd-length
input or a non-hex character makes the whole decode fail. -/
def hexDecodeList : List Char → Option (List Nat)
  | [] => some []
  | [_] => none
  | c1 :: c2 :: rest =>
    match hexDigitVal c1, hexDigitVal c2, hexDecodeList rest with
    | some hi, some lo, some bs => some ((hi * 16 + lo) :: bs)
    | _, _, _ => none

/-- Lower bound of the first continuation byte of a multi-byte UTF-8
sequence, depending on the leading byte (shortest-form constraint). -/
def cont1Lo (b : Nat) : Nat :=
  if b = 0xE0 then 0xA0 else if b = 0xF0 then 0x90 else 0x80

/-- Upper bound of the first continuation byte of a multi-byte UTF-8
sequence, depending on the leading byte (surrogate / max-scalar
constraint). -/
def cont1Hi (b : Nat) : Nat :=
  if b = 0xED then 0x9F else if b = 0xF4 then 0x8F else 0xBF

/-- Fuelled UTF-8 decoder with maximal-subpart replacement, models
`String::from_utf8_lossy`: each valid sequence becomes its scalar value,
each maximal invalid subpart becomes one U+FFFD (`0xFFFD`).  The fuel
only serves termination; it is consumed one unit per emitted code point
while at least one input byte is consumed, so fuel `≥` length suffices. -/
def utf8LossyGo : Nat → List Nat → List Nat
  | _, [] => []
  | 0, _ :: _ => []
  | fuel + 1, b :: rest =>
    if b < 0x80 then
      b :: utf8LossyGo fuel rest
    else if 0xC2 ≤ b ∧ b ≤ 0xDF then
      match rest with
      | [] => [0xFFFD]
      | b1 :: rest1 =>
        if 0x80 ≤ b1 ∧ b1 ≤ 0xBF then
          ((b - 0xC0) * 64 + (b1 - 0x80)) :: utf8LossyGo fuel rest1
        else
          0xFFFD :: utf8LossyGo fuel (b1 :: rest1)
    else if 0xE0 ≤ b ∧ b ≤ 0xEF then
      match rest with
      | [] => [0xFFFD]
      | b1 :: rest1 =>
        if cont1Lo b ≤ b1 ∧ b1 ≤ cont1Hi b then
          match rest1 with
          | [] => [0xFFFD]
          | b2 :: rest2 =>
            if 0x80 ≤ b2 ∧ b2 ≤ 0xBF then
              ((b - 0xE0) * 4096 + (b1 - 0x80) * 64 + (b2 - 0x80)) ::
                utf8LossyGo fuel rest2
            else
              0xFFFD :: utf8LossyGo fuel (b2 :: rest2)
        else
          0xFFFD :: utf8LossyGo fuel (b1 :: rest1)
    else if 0xF0 ≤ b ∧ b ≤ 0xF4 then
      match rest with
      | [] => [0xFFFD]
      | b1 :: rest1 =>
        if cont1Lo b ≤ b1 ∧ b1 ≤ cont1Hi b then
          match rest1 with
          | [] => [0xFFFD]
          | b2 :: rest2 =>
            if 0x80 ≤ b2 ∧ b2 ≤ 0xBF then
              match rest2 with
              | [] => [0xFFFD]
              | b3 :: rest3 =>
                if 0x80 ≤ b3 ∧ b3 ≤ 0xBF then
                  ((b - 0xF0) * 262144 + (b1 - 0x80) * 4096 +
                      (b2 - 0x80) * 64 + (b3 - 0x80)) ::
                    utf8LossyGo fuel rest3
                else
                  0xFFFD :: utf8LossyGo fuel (b3 :: rest3)
            else
              0xFFFD :: utf8LossyGo fuel (b2 :: rest2)
        else
          0xFFFD :: utf8LossyGo fuel (b1 :: rest1)
    else
      0xFFFD :: utf8LossyGo fuel rest

/-- Models `String::from_utf8_lossy` on a byte list, producing the list
of code points of the resulting text. -/
def utf8Lossy (bs : List Nat) : List Nat := utf8LossyGo bs.length bs

/-- Translation of `is_printable_ascii` (src/main.rs:76-78): every
character is ASCII (`code < 128`) and not an ASCII control character
(codes 0-31 and 127). -/
def is_printable_ascii (s : List Nat) : Bool :=
  s.all fun c => decide (c < 128) && !(decide (c ≤ 31) || decide (c = 127))

/-- Translation of `extract_hidden_message` (src/main.rs:80-88): decode
the hex payload, decode the bytes lossily as UTF-8, and keep the text
only when it is printable ASCII. -/
def extract_hidden_message (hex_data : String) : Option (List Nat) := do
  let data ← hexDecodeList hex_data.data
  let message := utf8Lossy data
  if is_printable_ascii message then some message else none

/-- Translation of the `ScriptPubKey` record (src/main.rs:6-14). -/
structure ScriptPubKey where
  asm : Option String
  hex : Option String
  script_type : Option String

/-- Translation of the `Vout` record (src/main.rs:16-24). -/
structure Vout where
  value : Option Float
  n : Option Nat
  script_pub_key : Option ScriptPubKey

/-- Translation of the `ScriptSig` record (src/main.rs:26-32). -/
structure ScriptSig where
  asm : Option String
  hex : Option String

/-- Translation of the `Vin` record (src/main.rs:34-46). -/
structure Vin where
  coinbase : Option String
  txid : Option String
  vout : Option Nat
  script_sig : Option ScriptSig
  sequence : Option Nat

/-- Translation of the `Transaction` record (src/main.rs:48-57). -/
structure Transaction where
  hash : String
  hex : Option String
  vin : List Vin
  vout : List Vout

/-- Label in front of a coinbase-derived message. -/
def lblCoinbase : List Nat := strCodes "Coinbase: "

/-- Label in front of a ScriptSig-derived message. -/
def lblScriptSig : List Nat := strCodes "ScriptSig: "

/-- Label in front of an OP_RETURN-output message. -/
def lblOpReturn : List Nat := strCodes "OP_RETURN: "

/-- Label in front of a non-nulldata output message. -/
def lblScriptPubKey : List Nat := strCodes "ScriptPubKey: "

/-- Body of the `for vin in &tx.vin` loop (src/main.rs:94-108): first the
coinbase field, then the ScriptSig hex, each appending at most one
labelled message to the accumulator. -/
def vinStep (msgs : List (List Nat)) (vin : Vin) : List (List Nat) :=
  let msgs1 :=
    match vin.coinbase with
    | some coinbase =>
      match extract_hidden_message coinbase with
      | some message => msgs ++ [lblCoinbase ++ message]
      | none => msgs
    | none => msgs
  match vin.script_sig with
  | some script_sig =>
    match script_sig.hex with
    | some hx =>
      match extract_hidden_message hx with
      | some message => msgs1 ++ [lblScriptSig ++ message]
      | none => msgs1
    | none => msgs1
  | none => msgs1

/-- Body of the `for vout in &tx.vout` loop (src/main.rs:111-125): the
label depends on whether the classification tag equals `"nulldata"`. -/
def voutStep (msgs : List (List Nat)) (vout : Vout) : List (List Nat) :=
  match vout.script_pub_key with
  | some script_pub_key =>
    match script_pub_key.hex with
    | some hx =>
      if script_pub_key.script_type = some "nulldata" then
        match extract_hidden_message hx with
        | some message => msgs ++ [lblOpReturn ++ message]
        | none => msgs
      else
        match extract_hidden_message hx with
        | some message => msgs ++ [lblScriptPubKey ++ message]
        | none => msgs
    | none => msgs
  | none => msgs

/-- Translation of `check_transaction_for_messages` (src/main.rs:90-128):
start from an empty vector, run the input loop, then the output loop. -/
def check_transaction_for_messages (tx : Transaction) : List (List Nat) :=
  tx.vout.foldl voutStep (tx.vin.foldl vinStep [])

/-- Messages contributed by the coinbase field of one input alone. -/
def coinbaseMessages (vin : Vin) : List (List Nat) :=
  match vin.coinbase with
  | some coinbase =>
    match extract_hidden_message coinbase with
    | some message => [lblCoinbase ++ message]
    | none => []
  | none => []

/-- Messages contributed by the ScriptSig hex field of one input alone. -/
def scriptSigMessages (vin : Vin) : List (List Nat) :=
  match vin.script_sig with
  | some script_sig =>
    match script_sig.hex with
    | some hx =>
      match extract_hidden_message hx with
      | some message => [lblScriptSig ++ message]
      | none => []
    | none => []
  | none => []

/-- Messages contributed by one input: coinbase first, then ScriptSig. -/
def vinMessages (vin : Vin) : List (List Nat) :=
  coinbaseMessages vin ++ scriptSigMessages vin

/-- Messages contributed by one output. -/
def voutMessages (vout : Vout) : List (List Nat) :=
  match vout.script_pub_key with
  | some script_pub_key =>
    match script_pub_key.hex with
    | some hx =>
      if script_pub_key.script_type = some "nulldata" then
        match extract_hidden_message hx with
        | some message => [lblOpReturn ++ message]
        | none => []
      else
        match extract_hidden_message hx with
        | some message => [lblScriptPubKey ++ message]
        | none => []
    | none => []
  | none => []

/-- Spec-side hexadecimal encoding of a byte list (two lowercase digits
per byte), the inverse direction used to state the round-trip claim. -/
def hexDigitChar (n : Nat) : Char :=
  if n < 10 then Char.ofNat (48 + n) else Char.ofNat (87 + n)

/-- Spec-side hex encoding of a byte sequence, for the round trip. -/
def hexEncode (bs : List Nat) : String :=
  String.mk (bs.flatMap fun b => [hexDigitChar (b / 16), hexDigitChar (b % 16)])

/-! Section: Properties of the UTF-8 lossy decoder -/

theorem cont1Lo_ge (b : Nat) : 128 ≤ cont1Lo b := by
  unfold cont1Lo; split_ifs <;> omega

theorem three_byte_ge (bh b1 b2 : Nat) (h0 : 0xE0 ≤ bh) (h1 : bh ≤ 0xEF)
    (hc : cont1Lo bh ≤ b1) :
    128 ≤ (bh - 0xE0) * 4096 + (b1 - 0x80) * 64 + (b2 - 0x80) := by
  unfold cont1Lo at hc; split_ifs at hc <;> omega

theorem four_byte_ge (bh b1 b2 b3 : Nat) (h0 : 0xF0 ≤ bh)
    (hc : cont1Lo bh ≤ b1) :
    128 ≤ (bh - 0xF0) * 262144 + (b1 - 0x80) * 4096 + (b2 - 0x80) * 64 +
      (b3 - 0x80) := by
  unfold cont1Lo at hc; split_ifs at hc <;> omega

theorem utf8LossyGo_ascii :
    ∀ (fuel : Nat) (l : List Nat), l.length ≤ fuel → (∀ b ∈ l, b < 128) →
      utf8LossyGo fuel l = l := by
  intro fuel
  induction fuel with
  | zero =>
    intro l hl _
    match l with
    | [] => rfl
    | b :: rest => simp at hl
  | succ n ih =>
    intro l hl hb
    match l with
    | [] => rfl
    | b :: rest =>
      have hbb : b < 128 := hb b (List.mem_cons_self _ _)
      have hl' : rest.length ≤ n := by simp only [List.length_cons] at hl; omega
      simp only [utf8LossyGo, if_pos hbb]
      rw [ih rest hl' (fun x hx => hb x (List.mem_cons_of_mem _ hx))]

theorem mem_utf8LossyGo :
    ∀ (fuel : Nat) (l : List Nat) (b : Nat), l.length ≤ fuel → b ∈ l → b < 128 →
      b ∈ utf8LossyGo fuel l := by
  intro fuel
  induction fuel with
  | zero =>
    intro l b hl hb _
    match l with
    | [] => cases hb
    | x :: rest => simp at hl
  | succ n ih =>
    intro l b hl hb hblt
    match l with
    | [] => cases hb
    | bh :: rest =>
      have hl' : rest.length ≤ n := by simp only [List.length_cons] at hl; omega
      rcases List.mem_cons.mp hb with rfl | hbrest
      · simp only [utf8LossyGo, if_pos hblt]
        exact List.mem_cons_self _ _
      · by_cases h1 : bh < 128
        · simp only [utf8LossyGo, if_pos h1]
          exact List.mem_cons_of_mem _ (ih rest b hl' hbrest hblt)
        · by_cases h2 : 0xC2 ≤ bh ∧ bh ≤ 0xDF
          · simp only [utf8LossyGo, if_neg h1, if_pos h2]
            match rest, hbrest, hl' with
            | b1 :: rest1, hbrest, hl' =>
              by_cases hc1 : 0x80 ≤ b1 ∧ b1 ≤ 0xBF
              · simp only [if_pos hc1]
                have hb1 : b ∈ rest1 := by
                  rcases List.mem_cons.mp hbrest with rfl | h
                  · omega
                  · exact h
                exact List.mem_cons_of_mem _
                  (ih rest1 b (by simp only [List.length_cons] at hl'; omega) hb1 hblt)
              · simp only [if_neg hc1]
                exact List.mem_cons_of_mem _ (ih _ b hl' hbrest hblt)
          · by_cases h3 : 0xE0 ≤ bh ∧ bh ≤ 0xEF
            · simp only [utf8LossyGo, if_neg h1, if_neg h2, if_pos h3]
              match rest, hbrest, hl' with
              | b1 :: rest1, hbrest, hl' =>
                by_cases hc1 : cont1Lo bh ≤ b1 ∧ b1 ≤ cont1Hi bh
                · simp only [if_pos hc1]
                  have hb1 : b ∈ rest1 := by
                    rcases List.mem_cons.mp hbrest with rfl | h
                    · have := cont1Lo_ge bh; omega
                    · exact h
                  have hl1 : rest1.length ≤ n - 1 := by
                    simp only [List.length_cons] at hl'; omega
                  match rest1, hb1, hl1 with
                  | b2 :: rest2, hb1, hl1 =>
                    by_cases hc2 : 0x80 ≤ b2 ∧ b2 ≤ 0xBF
                    · simp only [if_pos hc2]
                      have hb2 : b ∈ rest2 := by
                        rcases List.mem_cons.mp hb1 with rfl | h
                        · omega
                        · exact h
                      exact List.mem_cons_of_mem _
                        (ih rest2 b (by simp only [List.length_cons] at hl1; omega) hb2 hblt)
                    · simp only [if_neg hc2]
                      exact List.mem_cons_of_mem _
                        (ih _ b (by simp only [List.length_cons] at hl'; omega) hb1 hblt)
                · simp only [if_neg hc1]
                  exact List.mem_cons_of_mem _ (ih _ b hl' hbrest hblt)
            · by_cases h4 : 0xF0 ≤ bh ∧ bh ≤ 0xF4
              · simp only [utf8LossyGo, if_neg h1, if_neg h2, if_neg h3, if_pos h4]
                match rest, hbrest, hl' with
                | b1 :: rest1, hbrest, hl' =>
                  by_cases hc1 : cont1Lo bh ≤ b1 ∧ b1 ≤ cont1Hi bh
                  · simp only [if_pos hc1]
                    have hb1 : b ∈ rest1 := by
                      rcases List.mem_cons.mp hbrest with rfl | h
                      · have := cont1Lo_ge bh; omega
                      · exact h
                    have hl1 : rest1.length ≤ n - 1 := by
                      simp only [List.length_cons] at hl'; omega
                    match rest1, hb1, hl1 with
                    | b2 :: rest2, hb1, hl1 =>
                      by_cases hc2 : 0x80 ≤ b2 ∧ b2 ≤ 0xBF
                      · simp only [if_pos hc2]
                        have hb2 : b ∈ rest2 := by
                          rcases List.mem_cons.mp hb1 with rfl | h
                          · omega
                          · exact h
                        have hl2 : rest2.length ≤ n - 2 := by
                          simp only [List.length_cons] at hl1; omega
                        match rest2, hb2, hl2 with
                        | b3 :: rest3, hb2, hl2 =>
                          by_cases hc3 : 0x80 ≤ b3 ∧ b3 ≤ 0xBF
                          · simp only [if_pos hc3]
                            have hb3 : b ∈ rest3 := by
                              rcases List.mem_cons.mp hb2 with rfl | h
                              · omega
                              · exact h
                            exact List.mem_cons_of_mem _
                              (ih rest3 b (by simp only [List.length_cons] at hl2; omega) hb3 hblt)
                          · simp only [if_neg hc3]
                            exact List.mem_cons_of_mem _
                              (ih _ b (by simp only [List.length_cons] at hl1; omega) hb2 hblt)
                      · simp only [if_neg hc2]
                        exact List.mem_cons_of_mem _
                          (ih _ b (by simp only [List.length_cons] at hl'; omega) hb1 hblt)
                  · simp only [if_neg hc1]
                    exact List.mem_cons_of_mem _ (ih _ b hl' hbrest hblt)
              · simp only [utf8LossyGo, if_neg h1, if_neg h2, if_neg h3, if_neg h4]
                exact List.mem_cons_of_mem _ (ih rest b hl' hbrest hblt)

theorem utf8LossyGo_high :
    ∀ (fuel : Nat) (l : List Nat), l.length ≤ fuel → (∃ b ∈ l, 128 ≤ b) →
      ∃ c ∈ utf8LossyGo fuel l, 128 ≤ c := by
  intro fuel
  induction fuel with
  | zero =>
    intro l hl hb
    match l with
    | [] => rcases hb with ⟨b, hb, _⟩; cases hb
    | x :: rest => simp at hl
  | succ n ih =>
    intro l hl hb
    match l with
    | [] => rcases hb with ⟨b, hb, _⟩; cases hb
    | bh :: rest =>
      have hl' : rest.length ≤ n := by simp only [List.length_cons] at hl; omega
      by_cases h1 : bh < 128
      · simp only [utf8LossyGo, if_pos h1]
        rcases hb with ⟨b, hbmem, hbge⟩
        have hbrest : b ∈ rest := by
          rcases List.mem_cons.mp hbmem with rfl | h
          · omega
          · exact h
        rcases ih rest hl' ⟨b, hbrest, hbge⟩ with ⟨c, hc, hcge⟩
        exact ⟨c, List.mem_cons_of_mem _ hc, hcge⟩
      · by_cases h2 : 0xC2 ≤ bh ∧ bh ≤ 0xDF
        · simp only [utf8LossyGo, if_neg h1, if_pos h2]
          match rest with
          | [] => exact ⟨0xFFFD, List.mem_cons_self _ _, by omega⟩
          | b1 :: rest1 =>
            by_cases hc1 : 0x80 ≤ b1 ∧ b1 ≤ 0xBF
            · simp only [if_pos hc1]
              exact ⟨_, List.mem_cons_self _ _, by omega⟩
            · simp only [if_neg hc1]
              exact ⟨0xFFFD, List.mem_cons_self _ _, by omega⟩
        · by_cases h3 : 0xE0 ≤ bh ∧ bh ≤ 0xEF
          · simp only [utf8LossyGo, if_neg h1, if_neg h2, if_pos h3]
            match rest with
            | [] => exact ⟨0xFFFD, List.mem_cons_self _ _, by omega⟩
            | b1 :: rest1 =>
              by_cases hc1 : cont1Lo bh ≤ b1 ∧ b1 ≤ cont1Hi bh
              · simp only [if_pos hc1]
                match rest1 with
                | [] => exact ⟨0xFFFD, List.mem_cons_self _ _, by omega⟩
                | b2 :: rest2 =>
                  by_cases hc2 : 0x80 ≤ b2 ∧ b2 ≤ 0xBF
                  · simp only [if_pos hc2]
                    exact ⟨_, List.mem_cons_self _ _,
                      three_byte_ge bh b1 b2 h3.1 h3.2 hc1.1⟩
                  · simp only [if_neg hc2]
                    exact ⟨0xFFFD, List.mem_cons_self _ _, by omega⟩
              · simp only [if_neg hc1]
                exact ⟨0xFFFD, List.mem_cons_self _ _, by omega⟩
          · by_cases h4 : 0xF0 ≤ bh ∧ bh ≤ 0xF4
            · simp only [utf8LossyGo, if_neg h1, if_neg h2, if_neg h3, if_pos h4]
              match rest with
              | [] => exact ⟨0xFFFD, List.mem_cons_self _ _, by omega⟩
              | b1 :: rest1 =>
                by_cases hc1 : cont1Lo bh ≤ b1 ∧ b1 ≤ cont1Hi bh
                · simp only [if_pos hc1]
                  match rest1 with
                  | [] => exact ⟨0xFFFD, List.mem_cons_self _ _, by omega⟩
                  | b2 :: rest2 =>
                    by_cases hc2 : 0x80 ≤ b2 ∧ b2 ≤ 0xBF
                    · simp only [if_pos hc2]
                      match rest2 with
                      | [] => exact ⟨0xFFFD, List.mem_cons_self _ _, by omega⟩
                      | b3 :: rest3 =>
                        by_cases hc3 : 0x80 ≤ b3 ∧ b3 ≤ 0xBF
                        · simp only [if_pos hc3]
                          exact ⟨_, List.mem_cons_self _ _,
                            four_byte_ge bh b1 b2 b3 h4.1 hc1.1⟩
                        · simp only [if_neg hc3]
                          exact ⟨0xFFFD, List.mem_cons_self _ _, by omega⟩
                    · simp only [if_neg hc2]
                      exact ⟨0xFFFD, List.mem_cons_self _ _, by omega⟩
                · simp only [if_neg hc1]
                  exact ⟨0xFFFD, List.mem_cons_self _ _, by omega⟩
            · simp only [utf8LossyGo, if_neg h1, if_neg h2, if_neg h3, if_neg h4]
              exact ⟨0xFFFD, List.mem_cons_self _ _, by omega⟩

theorem utf8Lossy_ascii (l : List Nat) (h : ∀ b ∈ l, b < 128) : utf8Lossy l = l :=
  utf8LossyGo_ascii l.length l le_rfl h

theorem mem_utf8Lossy (l : List Nat) (b : Nat) (hb : b ∈ l) (hlt : b < 128) :
    b ∈ utf8Lossy l :=
  mem_utf8LossyGo l.length l b le_rfl hb hlt

theorem utf8Lossy_high (l : List Nat) (h : ∃ b ∈ l, 128 ≤ b) :
    ∃ c ∈ utf8Lossy l, 128 ≤ c :=
  utf8LossyGo_high l.length l le_rfl h

/-! Section: Properties of the printability filter and the hex decoder -/

theorem is_printable_ascii_iff (s : List Nat) :
    is_printable_ascii s = true ↔ ∀ c ∈ s, 32 ≤ c ∧ c ≤ 126 := by
  simp only [is_printable_ascii, List.all_eq_true, Bool.and_eq_true,
    Bool.not_eq_true', Bool.or_eq_false_iff, decide_eq_true_eq,
    decide_eq_false_iff_not]
  constructor
  · intro h c hc
    have := h c hc
    omega
  · intro h c hc
    have := h c hc
    omega

theorem hexDecodeList_length (l : List Char) :
    ∀ bs, hexDecodeList l = some bs → l.length = 2 * bs.length := by
  induction l using hexDecodeList.induct with
  | case1 =>
    intro bs h
    simp only [hexDecodeList, Option.some.injEq] at h
    subst h
    rfl
  | case2 c =>
    intro bs h
    simp [hexDecodeList] at h
  | case3 c1 c2 rest hi lo bs0 hrest hlo hhi ih =>
    intro bs h
    simp only [hexDecodeList, hrest, hlo, hhi, Option.some.injEq] at h
    subst h
    simp only [List.length_cons]
    have := ih bs0 hrest
    omega
  | case4 c1 c2 rest hfail ih =>
    intro bs h
    simp only [hexDecodeList] at h
    cases h

theorem hexDecodeList_eq_none_of_odd (l : List Char) (h : l.length % 2 = 1) :
    hexDecodeList l = none := by
  cases hdec : hexDecodeList l with
  | none => rfl
  | some bs =>
    have := hexDecodeList_length l bs hdec
    omega

theorem hexDecodeList_eq_none_of_bad (l : List Char) (c : Char) (hc : c ∈ l)
    (hbad : hexDigitVal c = none) : hexDecodeList l = none := by
  induction l using hexDecodeList.induct with
  | case1 => cases hc
  | case2 c0 => rfl
  | case3 c1 c2 rest hi lo bs0 hrest hlo hhi ih =>
    rcases List.mem_cons.mp hc with rfl | hc'
    · rw [hhi] at hbad; cases hbad
    · rcases List.mem_cons.mp hc' with rfl | hc''
      · rw [hlo] at hbad; cases hbad
      · rw [ih hc''] at hrest; cases hrest
  | case4 c1 c2 rest hfail ih =>
    simp only [hexDecodeList]

theorem hexDigitVal_hexDigitChar (n : Nat) (h : n < 16) :
    hexDigitVal (hexDigitChar n) = some n := by
  interval_cases n <;> decide

theorem hexDecodeList_encode (bs : List Nat) (h : ∀ b ∈ bs, b < 256) :
    hexDecodeList
      (bs.flatMap fun b => [hexDigitChar (b / 16), hexDigitChar (b % 16)]) =
      some bs := by
  induction bs with
  | nil => rfl
  | cons b rest ih =>
    have hb : b < 256 := h b (List.mem_cons_self _ _)
    have h1 : hexDigitVal (hexDigitChar (b / 16)) = some (b / 16) :=
      hexDigitVal_hexDigitChar _ (by omega)
    have h2 : hexDigitVal (hexDigitChar (b % 16)) = some (b % 16) :=
      hexDigitVal_hexDigitChar _ (by omega)
    have hrest := ih (fun x hx => h x (List.mem_cons_of_mem _ hx))
    show hexDecodeList (hexDigitChar (b / 16) :: hexDigitChar (b % 16) ::
      (rest.flatMap fun x => [hexDigitChar (x / 16), hexDigitChar (x % 16)])) =
      some (b :: rest)
    simp only [hexDecodeList, h1, h2, hrest, Option.some.injEq]
    have hdm : b / 16 * 16 + b % 16 = b := by omega
    rw [hdm]

theorem extract_eq_some_iff (hx : String) (s : List Nat) :
    extract_hidden_message hx = some s ↔
      ∃ bs, hexDecodeList hx.data = some bs ∧
        (∀ b ∈ bs, 32 ≤ b ∧ b ≤ 126) ∧ s = bs := by
  unfold extract_hidden_message
  cases hdec : hexDecodeList hx.data with
  | none => simp
  | some bs0 =>
    simp only [Option.bind_eq_bind, Option.some_bind, Option.some.injEq]
    constructor
    · intro h
      split at h
      case isTrue hp =>
        have hlow : ∀ b ∈ bs0, b < 128 := by
          by_contra hcon
          push_neg at hcon
          rcases hcon with ⟨b, hbmem, hbge⟩
          rcases utf8Lossy_high bs0 ⟨b, hbmem, hbge⟩ with ⟨c, hc, hcge⟩
          have := (is_printable_ascii_iff _).mp hp c hc
          omega
        have heq : utf8Lossy bs0 = bs0 := utf8Lossy_ascii bs0 hlow
        rw [heq] at hp h
        injection h with h
        exact ⟨bs0, rfl, (is_printable_ascii_iff _).mp hp, h.symm⟩
      case isFalse hp => cases h
    · intro h
      obtain ⟨bs, hbs, hbounds, hs⟩ := h
      have hbs2 : bs0 = bs := by simpa using hbs
      rw [hbs2]
      have heq : utf8Lossy bs = bs :=
        utf8Lossy_ascii bs (fun b hb => by have := hbounds b hb; omega)
      rw [heq, if_pos ((is_printable_ascii_iff _).mpr hbounds), hs]

/-! Section: Structure of the scanner -/

theorem vinStep_eq (msgs : List (List Nat)) (v : Vin) :
    vinStep msgs v = msgs ++ vinMessages v := by
  rcases v with ⟨cb, tx0, vt0, ssig, sq0⟩
  unfold vinStep vinMessages coinbaseMessages scriptSigMessages
  dsimp only
  cases cb with
  | none =>
    cases ssig with
    | none => simp
    | some ss =>
      rcases ss with ⟨sasm, shex⟩
      dsimp only
      cases shex with
      | none => simp
      | some hx =>
        cases he : extract_hidden_message hx with
        | none => simp [he]
        | some msg => simp [he]
  | some cbv =>
    cases hce : extract_hidden_message cbv with
    | none =>
      cases ssig with
      | none => simp [hce]
      | some ss =>
        rcases ss with ⟨sasm, shex⟩
        dsimp only
        cases shex with
        | none => simp [hce]
        | some hx =>
          cases he : extract_hidden_message hx with
          | none => simp [hce, he]
          | some msg => simp [hce, he]
    | some m =>
      cases ssig with
      | none => simp [hce]
      | some ss =>
        rcases ss with ⟨sasm, shex⟩
        dsimp only
        cases shex with
        | none => simp [hce]
        | some hx =>
          cases he : extract_hidden_message hx with
          | none => simp [hce, he]
          | some msg => simp [hce, he]

theorem voutStep_eq (msgs : List (List Nat)) (v : Vout) :
    voutStep msgs v = msgs ++ voutMessages v := by
  rcases v with ⟨val, n0, spk⟩
  unfold voutStep voutMessages
  dsimp only
  cases spk with
  | none => simp
  | some s =>
    rcases s with ⟨sasm, shex, stype⟩
    dsimp only
    cases shex with
    | none => simp
    | some hx =>
      by_cases ht : stype = some "nulldata"
      · simp only [if_pos ht]
        cases he : extract_hidden_message hx with
        | none => simp [he]
        | some msg => simp [he]
      · simp only [if_neg ht]
        cases he : extract_hidden_message hx with
        | none => simp [he]
        | some msg => simp [he]

theorem foldl_vinStep (l : List Vin) (a : List (List Nat)) :
    l.foldl vinStep a = a ++ l.flatMap vinMessages := by
  induction l generalizing a with
  | nil => simp
  | cons v rest ih =>
    simp only [List.foldl_cons, List.flatMap_cons, vinStep_eq, ih,
      List.append_assoc]

theorem foldl_voutStep (l : List Vout) (a : List (List Nat)) :
    l.foldl voutStep a = a ++ l.flatMap voutMessages := by
  induction l generalizing a with
  | nil => simp
  | cons v rest ih =>
    simp only [List.foldl_cons, List.flatMap_cons, voutStep_eq, ih,
      List.append_assoc]

theorem check_eq_flatMap (tx : Transaction) :
    check_transaction_for_messages tx =
      tx.vin.flatMap vinMessages ++ tx.vout.flatMap voutMessages := by
  unfold check_transaction_for_messages
  rw [foldl_voutStep, foldl_vinStep, List.nil_append]

theorem coinbaseMessages_length (v : Vin) : (coinbaseMessages v).length ≤ 1 := by
  rcases v with ⟨cb, tx0, vt0, ssig, sq0⟩
  unfold coinbaseMessages
  dsimp only
  cases cb with
  | none => simp
  | some c =>
    cases he : extract_hidden_message c with
    | none => simp [he]
    | some msg => simp [he]

theorem scriptSigMessages_length (v : Vin) : (scriptSigMessages v).length ≤ 1 := by
  rcases v with ⟨cb, tx0, vt0, ssig, sq0⟩
  unfold scriptSigMessages
  dsimp only
  cases ssig with
  | none => simp
  | some ss =>
    rcases ss with ⟨sasm, shex⟩
    dsimp only
    cases shex with
    | none => simp
    | some hx =>
      cases he : extract_hidden_message hx with
      | none => simp [he]
      | some msg => simp [he]

theorem voutMessages_length (v : Vout) : (voutMessages v).length ≤ 1 := by
  rcases v with ⟨val, n0, spk⟩
  unfold voutMessages
  dsimp only
  cases spk with
  | none => simp
  | some s =>
    rcases s with ⟨sasm, shex, stype⟩
    dsimp only
    cases shex with
    | none => simp
    | some hx =>
      by_cases ht : stype = some "nulldata"
      · simp only [if_pos ht]
        cases he : extract_hidden_message hx with
        | none => simp [he]
        | some msg => simp [he]
      · simp only [if_neg ht]
        cases he : extract_hidden_message hx with
        | none => simp [he]
        | some msg => simp [he]

theorem flatMap_length_le {α : Type} (l : List α) (f : α → List (List Nat))
    (k : Nat) (h : ∀ x ∈ l, (f x).length ≤ k) :
    (l.flatMap f).length ≤ k * l.length := by
  induction l with
  | nil => simp
  | cons x rest ih =>
    have hx := h x (List.mem_cons_self _ _)
    have hr := ih (fun y hy => h y (List.mem_cons_of_mem _ hy))
    calc ((x :: rest).flatMap f).length
        = (f x).length + (rest.flatMap f).length := by
          simp [List.flatMap_cons]
      _ ≤ k + k * rest.length := Nat.add_le_add hx hr
      _ = k * (rest.length + 1) := by ring
      _ = k * (x :: rest).length := by simp

theorem flatMap_eq_nil {α : Type} (l : List α) (f : α → List (List Nat))
    (h : ∀ x ∈ l, f x = []) : l.flatMap f = [] := by
  induction l with
  | nil => rfl
  | cons x rest ih =>
    simp only [List.flatMap_cons, h x (List.mem_cons_self _ _),
      List.nil_append]
    exact ih (fun y hy => h y (List.mem_cons_of_mem _ hy))

/-- The four message labels of the scanner. -/
def labels : List (List Nat) := [lblCoinbase, lblScriptSig, lblOpReturn, lblScriptPubKey]

theorem take_len_append {α : Type} (L r : List α) : (L ++ r).take L.length = L := by
  induction L with
  | nil => simp
  | cons a t ih => simp [ih]

theorem take_eq_take_eq {m A B : List Nat} (hA : m.take A.length = A)
    (hB : m.take B.length = B) (hle : A.length ≤ B.length) :
    B.take A.length = A := by
  rw [← hB, List.take_take, Nat.min_eq_left hle, hA]

theorem labels_take_unique (m : List Nat) (L1 L2 : List Nat)
    (h1 : L1 ∈ labels) (h2 : L2 ∈ labels)
    (ht1 : m.take L1.length = L1) (ht2 : m.take L2.length = L2) : L1 = L2 := by
  fin_cases h1 <;> fin_cases h2 <;>
    first
    | rfl
    | exact absurd (take_eq_take_eq ht1 ht2 (by decide)) (by decide)
    | exact absurd (take_eq_take_eq ht2 ht1 (by decide)) (by decide)

theorem vinMessages_origin (v : Vin) (m : List Nat) (h : m ∈ vinMessages v) :
    (∃ r, m = lblCoinbase ++ r) ∨ (∃ r, m = lblScriptSig ++ r) := by
  rcases v with ⟨cb, tx0, vt0, ssig, sq0⟩
  unfold vinMessages coinbaseMessages scriptSigMessages at h
  dsimp only at h
  rcases List.mem_append.mp h with h' | h'
  · left
    cases cb with
    | none => cases h'
    | some c =>
      cases he : extract_hidden_message c with
      | none => simp [he] at h'
      | some msg =>
        simp [he] at h'
        exact ⟨msg, h'⟩
  · right
    cases ssig with
    | none => cases h'
    | some ss =>
      rcases ss with ⟨sasm, shex⟩
      dsimp only at h'
      cases shex with
      | none => cases h'
      | some hx =>
        cases he : extract_hidden_message hx with
        | none => simp [he] at h'
        | some msg =>
          simp [he] at h'
          exact ⟨msg, h'⟩

theorem voutMessages_origin (v : Vout) (m : List Nat) (h : m ∈ voutMessages v) :
    (∃ r, m = lblOpReturn ++ r) ∨ (∃ r, m = lblScriptPubKey ++ r) := by
  rcases v with ⟨val, n0, spk⟩
  unfold voutMessages at h
  dsimp only at h
  cases spk with
  | none => cases h
  | some s =>
    rcases s with ⟨sasm, shex, stype⟩
    dsimp only at h
    cases shex with
    | none => cases h
    | some hx =>
      dsimp only at h
      by_cases ht : stype = some "nulldata"
      · left
        cases he : extract_hidden_message hx with
        | none => simp [ht, he] at h
        | some msg =>
          simp [ht, he] at h
          exact ⟨msg, h⟩
      · right
        cases he : extract_hidden_message hx with
        | none => simp [ht, he] at h
        | some msg =>
          simp [ht, he] at h
          exact ⟨msg, h⟩

/-! Section: Concrete values used to witness the claims -/

/-- An output classified `"nulldata"` carrying the hex of `"Test1234"`. -/
def voutNulldataTest : Vout :=
  { value := none, n := none,
    script_pub_key := some
      { asm := none, hex := some "5465737431323334",
        script_type := some "nulldata" } }

/-- The same output hex with classification `"pubkeyhash"`. -/
def voutPubkeyhashTest : Vout :=
  { value := none, n := none,
    script_pub_key := some
      { asm := none, hex := some "5465737431323334",
        script_type := some "pubkeyhash" } }

/-- A transaction with one input and one output carrying no hex fields. -/
def txEmptyTest : Transaction :=
  { hash := "h", hex := none,
    vin := [{ coinbase := none, txid := none, vout := none,
              script_sig := none, sequence := none }],
    vout := [{ value := none, n := none, script_pub_key := none }] }

/-- An input whose coinbase field is present but empty. -/
def vinEmptyCoinbaseTest : Vin :=
  { coinbase := some "", txid := none, vout := none,
    script_sig := none, sequence := none }

/-- A transaction whose single input carries the coinbase hex of `"Hello"`. -/
def txCoinbaseHelloTest : Transaction :=
  { hash := "h", hex := none,
    vin := [{ coinbase := some "48656c6c6f", txid := none, vout := none,
              script_sig := none, sequence := none }],
    vout := [] }

/-! Section: Claims -/

/-- C1: an output whose ScriptPubKey hex decodes to a passing message
yields exactly one message, labelled `OP_RETURN:` precisely when the
classification tag equals `"nulldata"` and `ScriptPubKey:` otherwise;
in particular hex `5465737431323334` gives `"OP_RETURN: Test1234"` under
`"nulldata"` and `"ScriptPubKey: Test1234"` under `"pubkeyhash"`. -/
theorem C1_output_label_by_classification :
    (∀ (v : Vout) (spk : ScriptPubKey) (hx : String) (m : List Nat),
        v.script_pub_key = some spk → spk.hex = some hx →
        extract_hidden_message hx = some m →
        voutMessages v =
          [(if spk.script_type = some "nulldata" then lblOpReturn
            else lblScriptPubKey) ++ m]) ∧
    voutMessages voutNulldataTest = [strCodes "OP_RETURN: Test1234"] ∧
    voutMessages voutPubkeyhashTest = [strCodes "ScriptPubKey: Test1234"] := by
  refine ⟨?_, by decide, by decide⟩
  intro v spk hx m hsp hhex he
  rcases v with ⟨val, n0, spk0⟩
  dsimp only at hsp
  subst hsp
  rcases spk with ⟨sasm, shex, stype⟩
  dsimp only at hhex
  subst hhex
  unfold voutMessages
  dsimp only
  by_cases ht : stype = some "nulldata" <;> simp [ht, he]

/-- C1 witness: the general clause applied to the concrete nulldata
output. -/
theorem C1_output_label_by_classification_witness :
    voutMessages voutNulldataTest =
      [(if (some "nulldata" : Option String) = some "nulldata" then lblOpReturn
        else lblScriptPubKey) ++ strCodes "Test1234"] :=
  C1_output_label_by_classification.1 voutNulldataTest
    { asm := none, hex := some "5465737431323334",
      script_type := some "nulldata" }
    "5465737431323334" (strCodes "Test1234") rfl rfl (by decide)

/-- C2: the scanner concatenates, in order, the per-input messages
(coinbase before ScriptSig, checked independently) followed by the
per-output messages, and a transaction with no hex fields yields the
empty sequence. -/
theorem C2_ordering_and_empty :
    (∀ tx : Transaction,
        check_transaction_for_messages tx =
          tx.vin.flatMap
            (fun v => coinbaseMessages v ++ scriptSigMessages v) ++
            tx.vout.flatMap voutMessages) ∧
    (∀ tx : Transaction,
        (∀ v ∈ tx.vin, v.coinbase = none) →
        (∀ v ∈ tx.vin, ∀ ss, v.script_sig = some ss → ss.hex = none) →
        (∀ w ∈ tx.vout, ∀ spk, w.script_pub_key = some spk → spk.hex = none) →
        check_transaction_for_messages tx = []) := by
  constructor
  · intro tx
    exact check_eq_flatMap tx
  · intro tx hcb hss hpk
    rw [check_eq_flatMap]
    have h1 : tx.vin.flatMap vinMessages = [] := by
      refine flatMap_eq_nil _ _ (fun v hv => ?_)
      have hv1 : coinbaseMessages v = [] := by
        unfold coinbaseMessages
        rw [hcb v hv]
      have hv2 : scriptSigMessages v = [] := by
        unfold scriptSigMessages
        cases hs : v.script_sig with
        | none => rfl
        | some ss => simp [hss v hv ss hs]
      unfold vinMessages
      rw [hv1, hv2]
      rfl
    have h2 : tx.vout.flatMap voutMessages = [] := by
      refine flatMap_eq_nil _ _ (fun w hw => ?_)
      unfold voutMessages
      cases hs : w.script_pub_key with
      | none => rfl
      | some spk => simp [hpk w hw spk hs]
    rw [h1, h2]
    rfl

/-- C2 witness: the empty-case clause applied to a concrete transaction
carrying no hex fields. -/
theorem C2_ordering_and_empty_witness :
    check_transaction_for_messages txEmptyTest = [] := by
  have h := C2_ordering_and_empty.2 txEmptyTest
    (by intro v hv; simp [txEmptyTest] at hv; subst hv; rfl)
    (by intro v hv ss hs; simp [txEmptyTest] at hv; subst hv; simp [txEmptyTest] at hs)
    (by intro w hw spk hs; simp [txEmptyTest] at hw; subst hw; simp [txEmptyTest] at hs)
  exact h

/-- C3: the printability filter passes exactly the strings whose
characters are all ASCII (code point `< 128`) and not control characters
(codes 0-31 and 127 rejected), equivalently all in the range 32-126. -/
theorem C3_printable_iff (s : List Nat) :
    (is_printable_ascii s = true ↔ ∀ c ∈ s, c < 128 ∧ ¬(c ≤ 31 ∨ c = 127)) ∧
    (is_printable_ascii s = true ↔ ∀ c ∈ s, 32 ≤ c ∧ c ≤ 126) := by
  constructor
  · rw [is_printable_ascii_iff]
    constructor
    · intro h c hc
      have := h c hc
      omega
    · intro h c hc
      have := h c hc
      omega
  · exact is_printable_ascii_iff s

/-- C3 witness: the characterization instantiated at a concrete string. -/
theorem C3_printable_iff_witness :
    is_printable_ascii (strCodes "Test1234") = true ↔
      ∀ c ∈ strCodes "Test1234", 32 ≤ c ∧ c ≤ 126 :=
  (C3_printable_iff (strCodes "Test1234")).2

/-- C4: round trip — for every byte sequence with all bytes in
`[32,126]`, extracting from its hex encoding succeeds and returns exactly
the original text. -/
theorem C4_round_trip (bs : List Nat) (h : ∀ b ∈ bs, 32 ≤ b ∧ b ≤ 126) :
    extract_hidden_message (hexEncode bs) = some bs := by
  have hdec : hexDecodeList (hexEncode bs).data = some bs := by
    show hexDecodeList
      (bs.flatMap fun b => [hexDigitChar (b / 16), hexDigitChar (b % 16)]) =
      some bs
    exact hexDecodeList_encode bs (fun b hb => by have := h b hb; omega)
  exact (extract_eq_some_iff _ _).mpr ⟨bs, hdec, h, rfl⟩

/-- C4 witness: the round trip at the concrete text `"Hi"`. -/
theorem C4_round_trip_witness :
    extract_hidden_message (hexEncode (strCodes "Hi")) = some (strCodes "Hi") :=
  C4_round_trip (strCodes "Hi") (by decide)

/-- C5: a hex string whose decoded bytes contain a byte `< 32` or
`= 127` fails the filter, so no message is extracted. -/
theorem C5_control_byte_fails (hx : String) (bs : List Nat)
    (hdec : hexDecodeList hx.data = some bs)
    (hbad : ∃ b ∈ bs, b < 32 ∨ b = 127) :
    extract_hidden_message hx = none := by
  cases he : extract_hidden_message hx with
  | none => rfl
  | some s =>
    exfalso
    rcases (extract_eq_some_iff hx s).mp he with ⟨bs2, hdec2, hbounds, hs⟩
    rw [hdec] at hdec2
    injection hdec2 with hh
    rcases hbad with ⟨b, hb, hor⟩
    have := hbounds b (hh ▸ hb)
    omega

/-- C5 witness: the concrete hex `"00"` decodes to the NUL byte and
yields no message. -/
theorem C5_control_byte_fails_witness : extract_hidden_message "00" = none :=
  C5_control_byte_fails "00" [0] (by decide) ⟨0, by decide, by decide⟩

/-- C6: an odd-length or non-hex string yields no message, and the
scanner is a concatenation of independent per-field contributions, so a
decode failure on one field never disturbs the others. -/
theorem C6_decode_failure_absorbed :
    (∀ s : String,
        (s.data.length % 2 = 1 ∨ ∃ c ∈ s.data, hexDigitVal c = none) →
        extract_hidden_message s = none) ∧
    (∀ tx : Transaction,
        check_transaction_for_messages tx =
          tx.vin.flatMap
            (fun v => coinbaseMessages v ++ scriptSigMessages v) ++
            tx.vout.flatMap voutMessages) := by
  constructor
  · intro s h
    have hnone : hexDecodeList s.data = none := by
      rcases h with h | ⟨c, hc, hbad⟩
      · exact hexDecodeList_eq_none_of_odd _ h
      · exact hexDecodeList_eq_none_of_bad _ c hc hbad
    unfold extract_hidden_message
    rw [hnone]
    rfl
  · intro tx
    exact check_eq_flatMap tx

/-- C6 witness: the failure clause at the odd-length non-hex string
`"zzz"`. -/
theorem C6_decode_failure_absorbed_witness :
    extract_hidden_message "zzz" = none :=
  C6_decode_failure_absorbed.1 "zzz" (Or.inl (by decide))

/-- C7: the empty hex string passes the whole pipeline with the empty
message, so a present-but-empty coinbase field surfaces as the bare
label `"Coinbase: "`. -/
theorem C7_empty_hex :
    extract_hidden_message "" = some [] ∧
    (∀ v : Vin, v.coinbase = some "" →
        vinMessages v = lblCoinbase :: scriptSigMessages v) := by
  constructor
  · decide
  · intro v hcb
    have he : extract_hidden_message "" = some [] := by decide
    unfold vinMessages coinbaseMessages
    simp [hcb, he]

/-- C7 witness: the coinbase clause at a concrete input with an empty
coinbase field. -/
theorem C7_empty_hex_witness :
    vinMessages vinEmptyCoinbaseTest =
      lblCoinbase :: scriptSigMessages vinEmptyCoinbaseTest :=
  C7_empty_hex.2 vinEmptyCoinbaseTest rfl

/-- C8: the scanner is total and deterministic — on every transaction it
returns some sequence, and equal inputs give equal outputs. -/
theorem C8_pure_total_deterministic :
    ∀ tx1 tx2 : Transaction, tx1 = tx2 →
      (∃ ms : List (List Nat), check_transaction_for_messages tx1 = ms) ∧
      check_transaction_for_messages tx1 = check_transaction_for_messages tx2 := by
  intro tx1 tx2 h
  exact ⟨⟨_, rfl⟩, by rw [h]⟩

/-- C8 witness: totality and determinism at a concrete transaction. -/
theorem C8_pure_total_deterministic_witness :
    (∃ ms : List (List Nat),
      check_transaction_for_messages txCoinbaseHelloTest = ms) ∧
    check_transaction_for_messages txCoinbaseHelloTest =
      check_transaction_for_messages txCoinbaseHelloTest :=
  C8_pure_total_deterministic txCoinbaseHelloTest txCoinbaseHelloTest rfl

/-- C9: full characterization — extraction returns `some s` exactly when
the input is a valid even-length hex string all of whose bytes lie in
`[32,126]`, and then `s` is the ASCII decoding of those bytes; a decoded
byte `≥ 128` therefore also yields no message. -/
theorem C9_extract_characterization :
    (∀ (hx : String) (s : List Nat),
        extract_hidden_message hx = some s ↔
          ∃ bs, hexDecodeList hx.data = some bs ∧
            (∀ b ∈ bs, 32 ≤ b ∧ b ≤ 126) ∧ s = bs) ∧
    (∀ (hx : String) (bs : List Nat), hexDecodeList hx.data = some bs →
        (∃ b ∈ bs, 128 ≤ b) → extract_hidden_message hx = none) := by
  constructor
  · exact extract_eq_some_iff
  · rintro hx bs hdec ⟨b, hb, hge⟩
    cases he : extract_hidden_message hx with
    | none => rfl
    | some s =>
      exfalso
      rcases (extract_eq_some_iff hx s).mp he with ⟨bs2, hdec2, hbounds, hs⟩
      rw [hdec] at hdec2
      injection hdec2 with hh
      have := hbounds b (hh ▸ hb)
      omega

/-- C9 witness: the characterization instantiated at the concrete hex
`"48"`. -/
theorem C9_extract_characterization_witness :
    extract_hidden_message "48" = some [72] ↔
      ∃ bs, hexDecodeList "48".data = some bs ∧
        (∀ b ∈ bs, 32 ≤ b ∧ b ≤ 126) ∧ [72] = bs :=
  C9_extract_characterization.1 "48" [72]

/-- C10: every scanner message begins with exactly one of the four
labels, and the number of messages is at most twice the number of inputs
plus the number of outputs. -/
theorem C10_output_invariant (tx : Transaction) :
    (∀ m ∈ check_transaction_for_messages tx,
        ∃! L, L ∈ labels ∧ m.take L.length = L) ∧
    (check_transaction_for_messages tx).length ≤
      2 * tx.vin.length + tx.vout.length := by
  constructor
  · intro m hm
    rw [check_eq_flatMap] at hm
    have horigin : ∃ L, L ∈ labels ∧ ∃ r, m = L ++ r := by
      rcases List.mem_append.mp hm with h | h
      · rcases List.mem_flatMap.mp h with ⟨v, hv, hmv⟩
        rcases vinMessages_origin v m hmv with ⟨r, hr⟩ | ⟨r, hr⟩
        · exact ⟨lblCoinbase, by simp [labels], r, hr⟩
        · exact ⟨lblScriptSig, by simp [labels], r, hr⟩
      · rcases List.mem_flatMap.mp h with ⟨v, hv, hmv⟩
        rcases voutMessages_origin v m hmv with ⟨r, hr⟩ | ⟨r, hr⟩
        · exact ⟨lblOpReturn, by simp [labels], r, hr⟩
        · exact ⟨lblScriptPubKey, by simp [labels], r, hr⟩
    rcases horigin with ⟨L, hL, r, rfl⟩
    refine ⟨L, ⟨hL, take_len_append L r⟩, ?_⟩
    rintro L2 ⟨hL2, ht2⟩
    exact labels_take_unique (L ++ r) L2 L hL2 hL ht2 (take_len_append L r)
  · rw [check_eq_flatMap]
    have h1 := flatMap_length_le tx.vin vinMessages 2 (fun v _ => by
      unfold vinMessages
      have hc := coinbaseMessages_length v
      have hs := scriptSigMessages_length v
      simp only [List.length_append]
      omega)
    have h2 := flatMap_length_le tx.vout voutMessages 1
      (fun v _ => voutMessages_length v)
    simp only [List.length_append]
    omega

/-- C10 witness: the invariant at a concrete transaction with one
coinbase message. -/
theorem C10_output_invariant_witness :
    (∃! L, L ∈ labels ∧
      (strCodes "Coinbase: Hello").take L.length = L) ∧
    (check_transaction_for_messages txCoinbaseHelloTest).length ≤
      2 * txCoinbaseHelloTest.vin.length + txCoinbaseHelloTest.vout.length :=
  ⟨(C10_output_invariant txCoinbaseHelloTest).1 (strCodes "Coinbase: Hello")
      (by decide),
    (C10_output_invariant txCoinbaseHelloTest).2⟩

end BitcoinMessageFinder
